import Mathlib

/-!
Shallow embedding of the retrieval core of `cli/context.py`
(chunk extraction, indexing ids, ignore filters, file-target inference,
dependency-graph construction, and the retrieval fallback chain),
with theorems settling the specification claims about it.

Strings are modelled as `List Char` (`Str`); Python `str` operations used by
the source (`in`, `replace`, slicing, `split`, `os.path.basename`,
f-string formatting of non-negative ints) are embedded explicitly below.
-/

abbrev Str := List Char

def strOf (s : String) : Str := s.data

/-- Python `pat in s` substring test (for nonempty `pat`). -/
def lcontains (pat : Str) : Str → Bool
  | [] => pat.isEmpty
  | c :: cs => pat.isPrefixOf (c :: cs) || lcontains pat cs

/-- Python `s.split(sep)` total-occurrence count plus one is the number of
parts; we only need the line count `len(code.split('\n'))`. -/
def numLines (s : Str) : Nat := s.count '\n' + 1

/-- Python `os.path.basename`: everything after the last `/`. -/
def basename (p : Str) : Str := (p.reverse.takeWhile (fun c => c != '/')).reverse

/-! ## Chunk extractor (`parse_file_with_treesitter`, context.py lines 91-171)

The tree-sitter parse tree is modelled by the fields the source reads:
each top-level child node has a node type, an optional `name` field whose
text the source extracts, its own source text, and start/end rows.
File-system reads and the syntax parse are the two failure points the
source guards (`except` handlers at lines 154-169); both are modelled as
`Except Unit`. A fixed file system is assumed, so the re-read performed in
the exception handler returns the same result as the first read. -/

structure TSNode where
  type : Str
  nameText : Option Str
  text : Str
  startRow : Nat
  endRow : Nat
deriving DecidableEq, Repr

structure TSTree where
  rootChildren : List TSNode
deriving DecidableEq, Repr

structure CodeChunk where
  file_path : Str
  content : Str
  chunk_type : Str
  name : Str
  start_line : Nat
  end_line : Nat
  imports : List Str
deriving DecidableEq, Repr

instance {ε α : Type} [DecidableEq ε] [DecidableEq α] :
    DecidableEq (Except ε α) := fun a b =>
  match a, b with
  | .ok x, .ok y =>
    if h : x = y then isTrue (by rw [h])
    else isFalse (fun hc => h (by injection hc))
  | .error x, .error y =>
    if h : x = y then isTrue (by rw [h])
    else isFalse (fun hc => h (by injection hc))
  | .ok _, .error _ => isFalse (fun hc => Except.noConfusion hc)
  | .error _, .ok _ => isFalse (fun hc => Except.noConfusion hc)

/-- A Python file as the extractor observes it: its path, the result of
reading it, the result of the tree-sitter parse of its content, and the
result of `extract_imports` on its content (that helper never raises:
it returns `[]` on parse failure, context.py lines 74-88). -/
structure PyFile where
  path : Str
  read : Except Unit Str
  parse : Except Unit TSTree
  imports : List Str
deriving DecidableEq, Repr

def fnDef : Str := strOf "function_definition"
def classDef : Str := strOf "class_definition"

/-- The per-child chunk extraction of the loop at context.py lines 111-140:
a `function_definition` or `class_definition` child with a `name` field
becomes one chunk; every other child contributes nothing. -/
def chunkOfChild (filePath : Str) (imports : List Str) (child : TSNode) :
    Option CodeChunk :=
  if child.type = fnDef then
    child.nameText.map fun nm =>
      ⟨filePath, child.text, strOf "function", nm, child.startRow, child.endRow, imports⟩
  else if child.type = classDef then
    child.nameText.map fun nm =>
      ⟨filePath, child.text, strOf "class", nm, child.startRow, child.endRow, imports⟩
  else none

/-- The whole-file chunk built at context.py lines 144-152 (`code[:5000]`,
name = basename, `end_line = len(code.split('\n'))`). -/
def wholeFileChunk (filePath : Str) (code : Str) (imports : List Str) : CodeChunk :=
  ⟨filePath, code.take 5000, strOf "file", basename filePath, 0,
    numLines code, imports⟩

/-- `parse_file_with_treesitter` (context.py lines 91-171).

If the read fails, the handler's re-read fails too and the empty chunk
list is returned.  If the read succeeds but the parse raises, no chunk has
been appended yet, and the handler re-reads the file and returns the single
truncated whole-file chunk with empty imports; its `end_line` is computed
from the truncated content (`content.split('\n')`, line 165).  Otherwise
the top-level children are scanned, and if none produced a chunk the
whole-file chunk (with the extracted imports, and `end_line` from the full
code, line 150) is returned. -/
def parse_file_with_treesitter (f : PyFile) : List CodeChunk :=
  match f.read with
  | .error _ => []
  | .ok code =>
    match f.parse with
    | .error _ =>
      [⟨f.path, code.take 5000, strOf "file", basename f.path, 0,
        numLines (code.take 5000), []⟩]
    | .ok tree =>
      let chunks := tree.rootChildren.filterMap (chunkOfChild f.path f.imports)
      if chunks.isEmpty then [wholeFileChunk f.path code f.imports] else chunks

/-! ### Claims C2, C5, C6 -/

/-- C2: `parse_file_with_treesitter` never raises past its boundary (in this
embedding it is a total function): when the file cannot be read it returns
the empty chunk list, and when the read succeeds but the syntax parse fails
it returns exactly one whole-file chunk whose content is the source
truncated to the 5000-character cap, with an empty imports list. -/
theorem C2_parse_never_raises (f : PyFile) :
    (f.read = .error () → parse_file_with_treesitter f = []) ∧
    (∀ code, f.read = .ok code → f.parse = .error () →
      parse_file_with_treesitter f =
        [⟨f.path, code.take 5000, strOf "file", basename f.path, 0,
          numLines (code.take 5000), []⟩]) := by
  constructor
  · intro h
    simp [parse_file_with_treesitter, h]
  · intro code hr hp
    simp [parse_file_with_treesitter, hr, hp]

theorem C2_parse_never_raises_witness :
    parse_file_with_treesitter ⟨strOf "a.py", .error (), .error (), []⟩ = [] ∧
    parse_file_with_treesitter ⟨strOf "b.py", .ok (strOf "x = (" ), .error (), []⟩ =
      [⟨strOf "b.py", strOf "x = (", strOf "file", strOf "b.py", 0, 1, []⟩] := by
  refine ⟨(C2_parse_never_raises _).1 rfl, ?_⟩
  have h := (C2_parse_never_raises ⟨strOf "b.py", .ok (strOf "x = ("), .error (), []⟩).2
      (strOf "x = (") rfl rfl
  rw [h]
  decide

/-- C5: assuming the tree-sitter invariant that every node's start row is at
most its end row, every chunk the extractor returns satisfies
`start_line ≤ end_line`; in particular the whole-file chunk has
`start_line = 0`. -/
theorem C5_start_le_end (f : PyFile)
    (htree : ∀ tree, f.parse = .ok tree →
      ∀ child ∈ tree.rootChildren, child.startRow ≤ child.endRow) :
    ∀ chunk ∈ parse_file_with_treesitter f, chunk.start_line ≤ chunk.end_line := by
  intro chunk hc
  unfold parse_file_with_treesitter at hc
  cases hr : f.read with
  | error e => simp [hr] at hc
  | ok code =>
    rw [hr] at hc
    cases hp : f.parse with
    | error e =>
      rw [hp] at hc
      simp only [List.mem_singleton] at hc
      subst hc
      exact Nat.zero_le _
    | ok tree =>
      rw [hp] at hc
      by_cases hemp : (tree.rootChildren.filterMap (chunkOfChild f.path f.imports)).isEmpty
      · simp only [hemp, if_pos, List.mem_singleton] at hc
        subst hc
        exact Nat.zero_le _
      · simp only [hemp, if_neg, Bool.false_eq_true, not_false_iff] at hc
        rcases List.mem_filterMap.mp hc with ⟨child, hmem, hch⟩
        have hrows := htree tree hp child hmem
        unfold chunkOfChild at hch
        by_cases h1 : child.type = fnDef
        · rw [if_pos h1] at hch
          rcases Option.map_eq_some'.mp hch with ⟨nm, _, hchunk⟩
          rw [← hchunk]
          exact hrows
        · rw [if_neg h1] at hch
          by_cases h2 : child.type = classDef
          · rw [if_pos h2] at hch
            rcases Option.map_eq_some'.mp hch with ⟨nm, _, hchunk⟩
            rw [← hchunk]
            exact hrows
          · rw [if_neg h2] at hch
            exact absurd hch (Option.noConfusion)

def demoFileC5 : PyFile :=
  ⟨strOf "c.py", .ok (strOf "def f():\n  pass\n"),
    .ok ⟨[⟨fnDef, some (strOf "f"), strOf "def f():\n  pass", 0, 1⟩]⟩, []⟩

def demoChunkC5 : CodeChunk :=
  ⟨strOf "c.py", strOf "def f():\n  pass", strOf "function", strOf "f", 0, 1, []⟩

theorem C5_start_le_end_witness :
    demoChunkC5 ∈ parse_file_with_treesitter demoFileC5 ∧
    demoChunkC5.start_line ≤ demoChunkC5.end_line := by
  have hmem : demoChunkC5 ∈ parse_file_with_treesitter demoFileC5 := by decide
  refine ⟨hmem, ?_⟩
  exact C5_start_le_end demoFileC5
    (by intro tree htree child hchild
        cases (by injection htree : (⟨[⟨fnDef, some (strOf "f"),
              strOf "def f():\n  pass", 0, 1⟩]⟩ : TSTree) = tree)
        simp only [List.mem_singleton] at hchild
        subst hchild
        decide)
    demoChunkC5 hmem

/-- C6: for a readable, parseable file none of whose top-level children is a
function or class definition, the extractor returns exactly one chunk: a
`file`-type chunk named after the file's base name whose content is the
source truncated to 5000 characters (hence of length at most 5000). -/
theorem C6_whole_file_chunk (f : PyFile) (code : Str) (tree : TSTree)
    (hr : f.read = .ok code) (hp : f.parse = .ok tree)
    (hnone : ∀ child ∈ tree.rootChildren, child.type ≠ fnDef ∧ child.type ≠ classDef) :
    parse_file_with_treesitter f = [wholeFileChunk f.path code f.imports] ∧
    (wholeFileChunk f.path code f.imports).chunk_type = strOf "file" ∧
    (wholeFileChunk f.path code f.imports).name = basename f.path ∧
    (wholeFileChunk f.path code f.imports).content = code.take 5000 ∧
    (wholeFileChunk f.path code f.imports).content.length ≤ 5000 := by
  have hfm : tree.rootChildren.filterMap (chunkOfChild f.path f.imports) = [] := by
    apply List.filterMap_eq_nil_iff.mpr
    intro child hmem
    rcases hnone child hmem with ⟨h1, h2⟩
    simp [chunkOfChild, h1, h2]
  refine ⟨?_, rfl, rfl, rfl, ?_⟩
  · simp [parse_file_with_treesitter, hr, hp, hfm]
  · exact le_trans (List.length_take_le _ _) (by omega)

theorem C6_whole_file_chunk_witness :
    parse_file_with_treesitter
      ⟨strOf "d.py", .ok (strOf "import os\nx = 1\n"),
        .ok ⟨[⟨strOf "import_statement", none, strOf "import os", 0, 0⟩]⟩,
        [strOf "os"]⟩ =
      [wholeFileChunk (strOf "d.py") (strOf "import os\nx = 1\n") [strOf "os"]] := by
  exact (C6_whole_file_chunk _ _ _ rfl rfl (by decide)).1

/-! ## Decimal rendering of non-negative integers

`index_codebase` builds each chunk id with
`f"{file_path}:{chunk.start_line}:{chunk_idx}"` (context.py line 386);
both numbers are non-negative, so the f-string renders them in plain
decimal. The fuel argument makes the recursion structural (fuel `n + 1`
always suffices since `n / 10 < n` for `n ≥ 10`). -/

def digitChar (d : Nat) : Char := Char.ofNat (48 + d)

def decReprAux : Nat → Nat → Str
  | 0, _ => []
  | fuel + 1, n =>
    if n < 10 then [digitChar n]
    else decReprAux fuel (n / 10) ++ [digitChar (n % 10)]

def decRepr (n : Nat) : Str := decReprAux (n + 1) n

theorem decReprAux_fuel_irrel :
    ∀ fuel₁ fuel₂ n, n < fuel₁ → n < fuel₂ →
      decReprAux fuel₁ n = decReprAux fuel₂ n := by
  intro fuel₁
  induction fuel₁ with
  | zero => intro fuel₂ n h₁ _; omega
  | succ g₁ ih =>
    intro fuel₂ n h₁ h₂
    cases fuel₂ with
    | zero => omega
    | succ g₂ =>
      by_cases hn : n < 10
      · simp [decReprAux, hn]
      · have hd : n / 10 < n := Nat.div_lt_self (by omega) (by omega)
        simp only [decReprAux, hn, if_neg, if_false]
        rw [ih g₂ (n / 10) (by omega) (by omega)]

theorem decReprAux_eq_decRepr (fuel n : Nat) (h : n < fuel) :
    decReprAux fuel n = decRepr n :=
  decReprAux_fuel_irrel fuel (n + 1) n h (Nat.lt_succ_self n)

theorem digitChar_toNat : ∀ d, d < 10 → (digitChar d).toNat = 48 + d := by
  decide

/-- Reading a decimal rendering back as a number. -/
def decVal (l : Str) : Nat := l.foldl (fun acc c => acc * 10 + (c.toNat - 48)) 0

theorem decVal_aux :
    ∀ fuel n acc, n < fuel →
      (decReprAux fuel n).foldl (fun acc c => acc * 10 + (c.toNat - 48)) acc =
        acc * 10 ^ (decReprAux fuel n).length + n := by
  intro fuel
  induction fuel with
  | zero => intro n acc h; omega
  | succ g ih =>
    intro n acc h
    by_cases hn : n < 10
    · simp only [decReprAux, hn, if_pos, List.foldl_cons, List.foldl_nil,
        List.length_singleton, pow_one]
      rw [digitChar_toNat n hn]
      omega
    · have hd : n / 10 < n := Nat.div_lt_self (by omega) (by omega)
      simp only [decReprAux, hn, if_neg, if_false, List.foldl_append,
        List.foldl_cons, List.foldl_nil, List.length_append,
        List.length_singleton]
      rw [ih (n / 10) acc (by omega)]
      rw [digitChar_toNat (n % 10) (Nat.mod_lt n (by omega))]
      rw [pow_succ]
      have := Nat.div_add_mod n 10
      ring_nf
      omega

theorem decVal_decRepr (n : Nat) : decVal (decRepr n) = n := by
  have := decVal_aux (n + 1) n 0 (Nat.lt_succ_self n)
  simpa [decVal, decRepr] using this

theorem decRepr_injective {a b : Nat} (h : decRepr a = decRepr b) : a = b := by
  have ha := decVal_decRepr a
  have hb := decVal_decRepr b
  rw [h] at ha
  omega

theorem mem_decReprAux_digit :
    ∀ fuel n c, c ∈ decReprAux fuel n → ∃ d, d < 10 ∧ c = digitChar d := by
  intro fuel
  induction fuel with
  | zero => intro n c h; simp [decReprAux] at h
  | succ g ih =>
    intro n c h
    by_cases hn : n < 10
    · simp only [decReprAux, hn, if_pos, List.mem_singleton] at h
      exact ⟨n, hn, h⟩
    · simp only [decReprAux, hn, if_neg, if_false, List.mem_append,
        List.mem_singleton] at h
      rcases h with h | h
      · exact ih (n / 10) c h
      · exact ⟨n % 10, Nat.mod_lt n (by omega), h⟩

theorem digitChar_ne_colon : ∀ d, d < 10 → digitChar d ≠ ':' := by
  decide

theorem colon_not_mem_decRepr (n : Nat) : ':' ∉ decRepr n := by
  intro h
  rcases mem_decReprAux_digit (n + 1) n ':' h with ⟨d, hd, heq⟩
  exact digitChar_ne_colon d hd heq.symm

/-! ## Splitting a string at `:` — used only to prove chunk ids injective -/

def splitCh : Str → List Str
  | [] => [[]]
  | c :: cs =>
    match splitCh cs with
    | [] => [[]]
    | h :: t => if c = ':' then [] :: h :: t else (c :: h) :: t

theorem splitCh_ne_nil (l : Str) : splitCh l ≠ [] := by
  cases l with
  | nil => simp [splitCh]
  | cons c cs =>
    simp only [splitCh]
    cases splitCh cs with
    | nil => simp
    | cons h t =>
      by_cases hc : c = ':' <;> simp [hc]

theorem splitCh_append_colon (u v : Str) :
    splitCh (u ++ ':' :: v) = splitCh u ++ splitCh v := by
  induction u with
  | nil =>
    simp only [List.nil_append, splitCh]
    cases hv : splitCh v with
    | nil => exact absurd hv (splitCh_ne_nil v)
    | cons h t => simp [splitCh]
  | cons a u' ih =>
    cases hu : splitCh u' with
    | nil => exact absurd hu (splitCh_ne_nil u')
    | cons h t =>
      simp only [List.cons_append, splitCh, ih, hu]
      by_cases ha : a = ':' <;> simp [ha, ih, hu]

theorem splitCh_colon_free (l : Str) (h : ':' ∉ l) : splitCh l = [l] := by
  induction l with
  | nil => simp [splitCh]
  | cons c cs ih =>
    have hc : c ≠ ':' := fun heq => h (heq ▸ List.mem_cons_self c cs)
    have hcs : ':' ∉ cs := fun hm => h (List.mem_cons_of_mem c hm)
    simp [splitCh, ih hcs, hc]

def joinColon : List Str → Str
  | [] => []
  | [x] => x
  | x :: y :: t => x ++ ':' :: joinColon (y :: t)

theorem joinColon_splitCh (l : Str) : joinColon (splitCh l) = l := by
  induction l with
  | nil => simp [splitCh, joinColon]
  | cons c cs ih =>
    simp only [splitCh]
    cases hcs : splitCh cs with
    | nil => exact absurd hcs (splitCh_ne_nil cs)
    | cons h t =>
      rw [hcs] at ih
      by_cases hc : c = ':'
      · subst hc
        simp only [if_pos, joinColon, List.nil_append]
        rw [ih]
      · simp only [hc, if_neg, if_false]
        cases t with
        | nil => simpa [joinColon] using congrArg (c :: ·) ih
        | cons y t' => simpa [joinColon] using congrArg (c :: ·) ih

theorem splitCh_injective {l₁ l₂ : Str} (h : splitCh l₁ = splitCh l₂) : l₁ = l₂ := by
  have := congrArg joinColon h
  rwa [joinColon_splitCh, joinColon_splitCh] at this

/-! ## Chunk ids (`index_codebase`, context.py line 386) -/

/-- The chunk id `f"{file_path}:{chunk.start_line}:{chunk_idx}"`. -/
def chunk_id (filePath : Str) (startLine ordinal : Nat) : Str :=
  filePath ++ ':' :: (decRepr startLine ++ ':' :: decRepr ordinal)

theorem splitCh_chunk_id (p : Str) (s i : Nat) :
    splitCh (chunk_id p s i) = splitCh p ++ [decRepr s, decRepr i] := by
  unfold chunk_id
  rw [splitCh_append_colon, splitCh_append_colon,
    splitCh_colon_free (decRepr s) (colon_not_mem_decRepr s),
    splitCh_colon_free (decRepr i) (colon_not_mem_decRepr i)]
  rfl

theorem chunk_id_injective {p₁ p₂ : Str} {s₁ s₂ i₁ i₂ : Nat}
    (h : chunk_id p₁ s₁ i₁ = chunk_id p₂ s₂ i₂) :
    p₁ = p₂ ∧ s₁ = s₂ ∧ i₁ = i₂ := by
  have hsplit := congrArg splitCh h
  rw [splitCh_chunk_id, splitCh_chunk_id] at hsplit
  have hlen : ([decRepr s₁, decRepr i₁] : List Str).length =
      ([decRepr s₂, decRepr i₂] : List Str).length := rfl
  rcases List.append_inj' hsplit hlen with ⟨hp, hsi⟩
  have hs : decRepr s₁ = decRepr s₂ := by
    simpa using congrArg (fun l => l.headI) hsi
  have hi : decRepr i₁ = decRepr i₂ := by
    simpa using congrArg (fun l => l.tail.headI) hsi
  exact ⟨splitCh_injective hp, decRepr_injective hs, decRepr_injective hi⟩

/-! ## Indexing (`index_codebase`, context.py lines 331-416)

The directory walk `context_path.rglob("*.py")` is modelled as a list of
`PyFile`s (rglob yields pairwise-distinct paths; theorems that need this
take it as a hypothesis). Embeddings and the vector-store batch add do not
affect the produced ids or the chunk count, so the embedding keeps exactly
the id/count computation of the loop at lines 374-405. -/

def dbDirName : Str := strOf ".code_assistant_db"

/-- The ignore list of `index_codebase` (context.py lines 344-348). -/
def index_ignore_patterns : List Str :=
  [strOf "__pycache__", strOf ".venv", strOf "venv", strOf ".git",
   strOf "node_modules", strOf ".pytest_cache", strOf ".mypy_cache",
   dbDirName]

/-- The ignore list shared by `get_simple_context` (lines 301-304) and
`build_file_dependency_graph` (lines 488-491): note it lacks
`.code_assistant_db`. -/
def fallback_ignore_patterns : List Str :=
  [strOf "__pycache__", strOf ".venv", strOf "venv", strOf ".git",
   strOf "node_modules", strOf ".pytest_cache", strOf ".mypy_cache"]

/-- `not any(pattern in str(f) for pattern in ignore_patterns)`. -/
def keepPath (patterns : List Str) (path : Str) : Bool :=
  ! patterns.any (fun pat => lcontains pat path)

def index_filtered_files (files : List PyFile) : List PyFile :=
  files.filter (fun f => keepPath index_ignore_patterns f.path)

/-- The ids generated for one file by the loop at lines 384-386:
`chunk_id = f"{file_path}:{chunk.start_line}:{chunk_idx}"` with
`chunk_idx` the enumeration ordinal within the file. -/
def ids_of_file (f : PyFile) : List Str :=
  (parse_file_with_treesitter f).enum.map fun p => chunk_id f.path p.2.start_line p.1

/-- All ids produced by one `index_codebase` run, in generation order. -/
def index_ids (files : List PyFile) : List Str :=
  (index_filtered_files files).flatMap ids_of_file

/-- The `total_chunks` counter of `index_codebase`. -/
def total_chunks (files : List PyFile) : Nat :=
  ((index_filtered_files files).map
    (fun f => (parse_file_with_treesitter f).length)).sum

/-! ### Claim C3 -/

/-- C3: `index_codebase` is idempotent — two runs over the same file tree
produce the same id list (hence the same id set) and the same total chunk
count, and the count always equals the number of ids generated. -/
theorem C3_index_idempotent (fs₁ fs₂ : List PyFile) (h : fs₁ = fs₂) :
    index_ids fs₁ = index_ids fs₂ ∧ total_chunks fs₁ = total_chunks fs₂ ∧
    total_chunks fs₁ = (index_ids fs₁).length := by
  subst h
  refine ⟨rfl, rfl, ?_⟩
  simp [total_chunks, index_ids, ids_of_file, List.length_flatMap,
    Function.comp_def]

def demoFileA : PyFile :=
  ⟨strOf "/r/a.py", .ok (strOf "def f():\n  pass\n"),
   .ok ⟨[⟨fnDef, some (strOf "f"), strOf "def f():\n  pass", 0, 1⟩]⟩, []⟩

def demoFileB : PyFile :=
  ⟨strOf "/r/b.py", .ok (strOf "x = 1\n"),
   .ok ⟨[⟨strOf "expression_statement", none, strOf "x = 1", 0, 0⟩]⟩, []⟩

theorem C3_index_idempotent_witness :
    index_ids [demoFileA, demoFileB] = index_ids [demoFileA, demoFileB] ∧
    total_chunks [demoFileA, demoFileB] = total_chunks [demoFileA, demoFileB] ∧
    total_chunks [demoFileA, demoFileB] = (index_ids [demoFileA, demoFileB]).length :=
  C3_index_idempotent [demoFileA, demoFileB] [demoFileA, demoFileB] rfl

/-! ### Claim C10 -/

/-- C10: within a single `index_codebase` run over files with pairwise
distinct paths, all generated chunk ids are pairwise distinct, so the
single batch `collection.add` receives no duplicate id. -/
theorem C10_ids_nodup (files : List PyFile)
    (hpaths : (files.map PyFile.path).Nodup) :
    (index_ids files).Nodup := by
  have hfil : ((index_filtered_files files).map PyFile.path).Nodup :=
    hpaths.sublist ((List.filter_sublist files).map PyFile.path)
  rw [index_ids]
  apply List.nodup_flatMap.mpr
  constructor
  · intro f _
    apply List.Nodup.map_on
    · rintro ⟨i₁, c₁⟩ hx ⟨i₂, c₂⟩ hy hxy
      rcases chunk_id_injective hxy with ⟨_, _, hi⟩
      dsimp at hi
      subst hi
      have h₁ := (List.mk_mem_enum_iff_getElem?).mp hx
      have h₂ := (List.mk_mem_enum_iff_getElem?).mp hy
      rw [h₁] at h₂
      exact congrArg (Prod.mk i₁) (Option.some_injective _ h₂)
    · have hmap : ((parse_file_with_treesitter f).enum.map Prod.fst).Nodup := by
        rw [List.enum_map_fst]
        exact List.nodup_range _
      exact hmap.of_map
  · have hpw : (index_filtered_files files).Pairwise (fun a b => a.path ≠ b.path) := by
      have h := hfil
      unfold List.Nodup at h
      exact (List.pairwise_map).mp h
    refine hpw.imp ?_
    intro a b hne
    intro id hida hidb
    rcases List.mem_map.mp hida with ⟨x, _, hxe⟩
    rcases List.mem_map.mp hidb with ⟨y, _, hye⟩
    rw [← hye] at hxe
    rcases chunk_id_injective hxe with ⟨hp, _, _⟩
    exact hne hp

theorem C10_ids_nodup_witness :
    ([demoFileA, demoFileB].map PyFile.path).Nodup ∧
    (index_ids [demoFileA, demoFileB]).Nodup :=
  ⟨by decide, C10_ids_nodup [demoFileA, demoFileB] (by decide)⟩

/-! ## Python `str.replace` (used by `build_file_dependency_graph`, line 504)

`str.replace(old, new)` scans left to right and replaces every
non-overlapping occurrence. The fuel argument (initially the string's
length) makes the recursion structural; for a nonempty pattern every step
consumes at least one character, so the fuel never runs out. -/

def replaceAllAux (pat rep : Str) : Nat → Str → Str
  | 0, s => s
  | _ + 1, [] => []
  | fuel + 1, c :: cs =>
    if pat.isPrefixOf (c :: cs) then
      rep ++ replaceAllAux pat rep fuel ((c :: cs).drop pat.length)
    else c :: replaceAllAux pat rep fuel cs

def replaceAll (pat rep s : Str) : Str := replaceAllAux pat rep s.length s

def pyExt : Str := strOf ".py"

theorem replaceAllAux_nil (pat rep : Str) (fuel : Nat) :
    replaceAllAux pat rep fuel [] = [] := by
  cases fuel <;> rfl

/-- A match of `.py` starting inside `t ++ ".py"` cannot straddle the
boundary: if `.py` is a prefix of `c :: (t' ++ ".py")` it is already a
prefix of `c :: t'`. -/
theorem pyExt_prefix_boundary (c : Char) (t' : Str)
    (h : pyExt.isPrefixOf (c :: (t' ++ pyExt)) = true) :
    pyExt.isPrefixOf (c :: t') = true := by
  cases t' with
  | nil => simp [pyExt, strOf, List.isPrefixOf] at h
  | cons d t'' =>
    cases t'' with
    | nil => simp [pyExt, strOf, List.isPrefixOf] at h
    | cons e t₃ =>
      simp only [pyExt, strOf, List.cons_append, List.isPrefixOf,
        Bool.and_eq_true, beq_iff_eq] at h ⊢
      exact ⟨h.1, h.2.1, h.2.2.1, trivial⟩

theorem replaceAllAux_pyExt_strip :
    ∀ fuel t, (t ++ pyExt).length ≤ fuel → lcontains pyExt t = false →
      replaceAllAux pyExt [] fuel (t ++ pyExt) = t := by
  intro fuel
  induction fuel with
  | zero =>
    intro t hlen _
    simp [pyExt, strOf] at hlen
  | succ g ih =>
    intro t hlen hocc
    cases t with
    | nil =>
      show replaceAllAux pyExt [] (g + 1) ([] ++ pyExt) = []
      rw [List.nil_append]
      show replaceAllAux pyExt [] (g + 1) ('.' :: strOf "py") = []
      rw [replaceAllAux]
      rw [if_pos (by decide)]
      simp [pyExt, strOf, replaceAllAux_nil]
    | cons c t' =>
      rcases Bool.or_eq_false_iff.mp
        (by simpa [lcontains] using hocc) with ⟨hpre₀, hocc'⟩
      have hlen' : (t' ++ pyExt).length ≤ g := by
        simp only [List.length_append, List.length_cons] at hlen ⊢
        omega
      rw [List.cons_append, replaceAllAux]
      have hpre : ¬ pyExt.isPrefixOf (c :: (t' ++ pyExt)) = true := by
        intro hp
        have := pyExt_prefix_boundary c t' hp
        rw [this] at hpre₀
        exact Bool.noConfusion hpre₀
      rw [if_neg hpre]
      rw [ih t' hlen' hocc']

theorem replaceAll_pyExt_strip (t : Str) (h : lcontains pyExt t = false) :
    replaceAll pyExt [] (t ++ pyExt) = t :=
  replaceAllAux_pyExt_strip (t ++ pyExt).length t (le_refl _) h

/-! ## Dependency graph (`build_file_dependency_graph`, context.py 479-526)

Each scanned file carries its absolute path (in `file.path`, matched
against the ignore substrings, as `str(f)` is in the source) and its
root-relative path `relPath` (the result of `file_path.relative_to
(context_path)`, with `/` separators). -/

/-- The module-name key of line 504:
`str(rel_path).replace('.py', '').replace('/', '.')` — note that
`str.replace` removes every occurrence of `.py`, not only a trailing
extension. -/
def module_name_of (relPath : Str) : Str :=
  replaceAll (strOf "/") (strOf ".") (replaceAll pyExt [] relPath)

/-- The module-name rule as claim C9 states it: strip only the trailing
`.py` extension, then replace each path separator by `.`. -/
def module_name_spec (relPath : Str) : Str :=
  replaceAll (strOf "/") (strOf ".")
    (if pyExt.isSuffixOf relPath then relPath.take (relPath.length - 3)
     else relPath)

/-- A file as `build_file_dependency_graph` observes it: the `PyFile`
(absolute path — what `str(f)` is matched against — plus read result and
extracted imports) together with its root-relative path
(`file_path.relative_to(context_path)`). -/
structure DepFile where
  file : PyFile
  relPath : Str
deriving DecidableEq, Repr

/-- The filtered enumeration of `build_file_dependency_graph`
(context.py lines 485-496): note the ignore list lacks
`.code_assistant_db`. -/
def dep_graph_filtered_files (files : List DepFile) : List DepFile :=
  files.filter fun d => keepPath fallback_ignore_patterns d.file.path

/-- The module-to-file dict of lines 501-505, built in enumeration order;
a later assignment to the same key overwrites an earlier one. -/
def module_to_file (files : List DepFile) : List (Str × Str) :=
  (dep_graph_filtered_files files).map fun d =>
    (module_name_of d.relPath, d.file.path)

/-- Python dict lookup on the association list: the last binding wins. -/
def dictLookup (m : List (Str × Str)) (k : Str) : Option Str :=
  (m.reverse.find? fun p => p.1 == k).map Prod.snd

/-- `build_file_dependency_graph` (context.py lines 479-526): for each
filtered file, resolve each extracted import by one flat lookup in the
module map, dropping unresolved ones; a file whose read raises gets an
empty adjacency list (lines 523-524). Resolution never traverses the
graph, so cyclic imports cannot cause non-termination. -/
def build_file_dependency_graph (files : List DepFile) : List (Str × List Str) :=
  (dep_graph_filtered_files files).map fun d =>
    (d.file.path,
     match d.file.read with
     | .error _ => []
     | .ok _ => d.file.imports.filterMap (dictLookup (module_to_file files)))

/-! ### Claim C9 -/

/-- C9 counterexample: for the relative path `a.py.py` the code's module
name (every occurrence of `.py` removed, yielding `a`) differs from the
claimed one (only the trailing extension stripped, yielding `a.py`). -/
theorem C9_counterexample :
    module_name_of (strOf "a.py.py") ≠ module_name_spec (strOf "a.py.py") := by
  decide

/-- C9 (amended): the module-name key is the relative path with every
occurrence of the substring `.py` removed and then every `/` replaced by
`.`; when the only occurrence of `.py` is the trailing extension this
coincides with stripping the extension and replacing separators, as the
claim states. -/
theorem C9_module_name (t : Str) (h : lcontains pyExt t = false) :
    module_name_of (t ++ pyExt) =
      replaceAll (strOf "/") (strOf ".") t := by
  unfold module_name_of
  rw [replaceAll_pyExt_strip t h]

theorem C9_module_name_witness :
    lcontains pyExt (strOf "cli/context") = false ∧
    module_name_of (strOf "cli/context" ++ pyExt) =
      replaceAll (strOf "/") (strOf ".") (strOf "cli/context") ∧
    module_name_of (strOf "cli/context.py") = strOf "cli.context" :=
  ⟨by decide, C9_module_name (strOf "cli/context") (by decide), by decide⟩

/-! ### Claim C8 -/

def depFileA : DepFile :=
  ⟨⟨strOf "/r/a.py", .ok (strOf "import b\n"), .ok ⟨[]⟩, [strOf "b"]⟩,
   strOf "a.py"⟩

def depFileB : DepFile :=
  ⟨⟨strOf "/r/b.py", .ok (strOf "import a\n"), .ok ⟨[]⟩, [strOf "a"]⟩,
   strOf "b.py"⟩

/-- C8: `build_file_dependency_graph` is total (it terminates on every
input, cyclic imports included, since each import is resolved by a single
flat map lookup); on the two-file cycle A imports B, B imports A it
returns exactly the adjacency map {A: [B], B: [A]}; and every entry of
every adjacency list is the resolution of some import through the module
map — imports that resolve to no local filtered file are omitted. -/
theorem C8_dependency_graph :
    build_file_dependency_graph [depFileA, depFileB] =
      [(strOf "/r/a.py", [strOf "/r/b.py"]),
       (strOf "/r/b.py", [strOf "/r/a.py"])] ∧
    (∀ files : List DepFile, ∀ p : Str, ∀ deps : List Str, ∀ x : Str,
      (p, deps) ∈ build_file_dependency_graph files → x ∈ deps →
      ∃ imp, dictLookup (module_to_file files) imp = some x) := by
  constructor
  · decide
  · intro files p deps x hmem hx
    rcases List.mem_map.mp hmem with ⟨d, _, hpair⟩
    have hdeps : deps =
        match d.file.read with
        | .error _ => []
        | .ok _ => d.file.imports.filterMap (dictLookup (module_to_file files)) := by
      have := congrArg Prod.snd hpair
      simpa using this.symm
    cases hread : d.file.read with
    | error e =>
      rw [hread] at hdeps
      subst hdeps
      exact absurd hx (List.not_mem_nil x)
    | ok code =>
      rw [hread] at hdeps
      subst hdeps
      rcases List.mem_filterMap.mp hx with ⟨imp, _, himp⟩
      exact ⟨imp, himp⟩

theorem C8_dependency_graph_witness :
    ∃ imp, dictLookup (module_to_file [depFileA, depFileB]) imp =
      some (strOf "/r/b.py") :=
  C8_dependency_graph.2 [depFileA, depFileB] (strOf "/r/a.py")
    [strOf "/r/b.py"] (strOf "/r/b.py") (by decide) (by decide)

/-! ### Claim C4 -/

/-- The filtered enumeration of `get_simple_context` (context.py lines
298-309), which scans plain paths; its ignore list also lacks
`.code_assistant_db`. -/
def simple_context_filtered_paths (paths : List Str) : List Str :=
  paths.filter (keepPath fallback_ignore_patterns)

/-- C4 counterexample: a file inside the index storage directory passes
both the `get_simple_context` filter and the `build_file_dependency_graph`
filter (their ignore lists lack `.code_assistant_db`), so not every
directory scan excludes the index's storage directory. -/
theorem C4_counterexample :
    lcontains dbDirName (strOf "/r/.code_assistant_db/x.py") = true ∧
    simple_context_filtered_paths [strOf "/r/.code_assistant_db/x.py"] =
      [strOf "/r/.code_assistant_db/x.py"] ∧
    (dep_graph_filtered_files
        [⟨⟨strOf "/r/.code_assistant_db/x.py", .ok [], .ok ⟨[]⟩, []⟩,
          strOf ".code_assistant_db/x.py"⟩]).map (fun d => d.file.path) =
      [strOf "/r/.code_assistant_db/x.py"] := by
  refine ⟨by decide, by decide, ?_⟩
  decide

/-- C4 (amended): the indexing enumeration — and only it among the three
scans — excludes every file whose path contains the index storage
directory name `.code_assistant_db`. -/
theorem C4_index_excludes_db (files : List PyFile) (f : PyFile)
    (hf : f ∈ index_filtered_files files) :
    lcontains dbDirName f.path = false := by
  rcases List.mem_filter.mp hf with ⟨_, hkeep⟩
  have hany : (index_ignore_patterns.any fun pat => lcontains pat f.path) = false := by
    simpa [keepPath] using hkeep
  have hall := List.any_eq_false.mp hany
  have hdb : dbDirName ∈ index_ignore_patterns := by
    simp [index_ignore_patterns]
  cases hval : lcontains dbDirName f.path with
  | false => rfl
  | true => exact absurd hval (hall dbDirName hdb)

theorem C4_index_excludes_db_witness :
    demoFileA ∈ index_filtered_files [demoFileA] ∧
    lcontains dbDirName demoFileA.path = false :=
  ⟨by decide, C4_index_excludes_db [demoFileA] demoFileA (by decide)⟩

/-! ## File-target inference (`infer_target_files`, context.py 174-218)

Pattern family 1 scans the query with six regexes of the common shape
`verb\s+([a-zA-Z0-9_./]+\.[a-zA-Z0-9]+)` under `re.IGNORECASE`; `findall`
collects every non-overlapping leftmost match.  The group's backtracking
semantics: from the match position the run of path characters is read, and
the group succeeds on the rightmost `.` inside the run that is preceded by
at least one path character and followed by at least one alphanumeric
character, extending through that alphanumeric run. -/

def isWS (c : Char) : Bool :=
  c = ' ' || c = '\t' || c = '\n' || c = '\r' || c = '\x0b' || c = '\x0c'

def isFileChar (c : Char) : Bool := c.isAlphanum || c = '_' || c = '.' || c = '/'

def isExtChar (c : Char) : Bool := c.isAlphanum

/-- Group tail: rightmost `.` (at any position of the argument) followed by
a nonempty alphanumeric run; used below only from the second character of
the path-character run, matching the requirement of at least one
`[a-zA-Z0-9_./]` character before the dot. -/
def fileGroupTail : Str → Option Str
  | [] => none
  | c :: cs =>
    match fileGroupTail cs with
    | some g => some (c :: g)
    | none =>
      if c = '.' then
        match cs.takeWhile isExtChar with
        | [] => none
        | e => some ('.' :: e)
      else none

/-- The capture group `([a-zA-Z0-9_./]+\.[a-zA-Z0-9]+)` applied at the
start of `r` (the maximal path-character run). -/
def fileGroup : Str → Option Str
  | [] => none
  | c :: cs =>
    match fileGroupTail cs with
    | some g => some (c :: g)
    | none => none

/-- One attempt of `verb\s+(group)` at the start of `s` (case-insensitive
verb); returns the captured group and the total match length. -/
def tryFilePattern (kw : Str) (s : Str) : Option (Str × Nat) :=
  if kw.isPrefixOf (s.map Char.toLower) then
    let after := s.drop kw.length
    let ws := after.takeWhile isWS
    if ws.isEmpty then none
    else
      let rest := after.drop ws.length
      match fileGroup (rest.takeWhile isFileChar) with
      | some g => some (g, kw.length + ws.length + g.length)
      | none => none
  else none

/-- `re.findall`: leftmost non-overlapping matches, resuming after each
match end. Fuel is the string length; every step consumes at least one
character. -/
def findallAux (kw : Str) : Nat → Str → List Str
  | 0, _ => []
  | _ + 1, [] => []
  | fuel + 1, c :: cs =>
    match tryFilePattern kw (c :: cs) with
    | some (g, len) => g :: findallAux kw fuel ((c :: cs).drop len)
    | none => findallAux kw fuel cs

def findall (kw : Str) (s : Str) : List Str := findallAux kw s.length s

/-- The verbs of the six explicit-mention patterns (context.py 180-187). -/
def file_pattern_verbs : List Str :=
  [strOf "create", strOf "edit", strOf "modify", strOf "update",
   strOf "in", strOf "file"]

def pattern1_matches (query : Str) : List Str :=
  file_pattern_verbs.flatMap fun kw => findall kw query

/-! Pattern family 2 (context.py 196-216): each row's regex
`\bstem(?:suffix)?\b` is matched against the lowercased query; since `\b`
separates word characters (`[a-zA-Z0-9_]`) from non-word characters, the
regex matches exactly when some maximal word-character run of the query
equals one of the row's full word forms. -/

def isWordChar (c : Char) : Bool := c.isAlphanum || c = '_'

def wordsAux : Nat → Str → List Str
  | 0, _ => []
  | _ + 1, [] => []
  | fuel + 1, c :: cs =>
    if isWordChar c then
      let w := (c :: cs).takeWhile isWordChar
      w :: wordsAux fuel ((c :: cs).drop w.length)
    else wordsAux fuel cs

/-- The maximal word-character runs of a string. -/
def wordsOf (s : Str) : List Str := wordsAux s.length s

/-- `keywords_to_files` (context.py 196-206): each row as the set of full
word forms its regex accepts, paired with its ordered candidate list. -/
def keywords_to_files : List (List Str × List Str) :=
  [([strOf "calculator"], [strOf "calc.py", strOf "calculator.py"]),
   ([strOf "auth", strOf "authentication"],
      [strOf "auth.py", strOf "authentication.py"]),
   ([strOf "config", strOf "configuration"],
      [strOf "config.py", strOf "settings.py"]),
   ([strOf "util", strOf "utils"], [strOf "utils.py", strOf "helpers.py"]),
   ([strOf "test", strOf "tests"], [strOf "test.py", strOf "tests.py"]),
   ([strOf "model", strOf "models"], [strOf "model.py", strOf "models.py"]),
   ([strOf "view", strOf "views"], [strOf "view.py", strOf "views.py"]),
   ([strOf "api"], [strOf "api.py", strOf "routes.py"]),
   ([strOf "database"], [strOf "database.py", strOf "db.py"])]

def keywordMatches (forms : List Str) (queryLower : Str) : Bool :=
  (wordsOf queryLower).any fun w => forms.any fun f => f == w

/-- The keyword-to-candidate additions (loop at context.py 208-216): for
each matching keyword row, the first candidate that exists on disk under
the root — `fs` lists the relative paths for which `os.path.exists
(os.path.join(context_dir, candidate))` holds — and nothing if none
exists. -/
def pattern2_matches (query : Str) (fs : List Str) : List Str :=
  let queryLower := query.map Char.toLower
  keywords_to_files.flatMap fun row =>
    if keywordMatches row.1 queryLower then
      match row.2.find? (fun cand => fs.contains cand) with
      | some c => [c]
      | none => []
    else []

/-- `infer_target_files` (context.py 174-218): both rule families, then
`list(set(...))`; the Python set has no ordering guarantee, so the result
is modelled up to membership by deduplicating the concatenation. -/
def infer_target_files (query : Str) (fs : List Str) : List Str :=
  (pattern1_matches query ++ pattern2_matches query fs).dedup

/-! ### Claim C7 -/

/-- C7: the keyword-to-candidate rule adds, for each matched keyword row,
exactly the first listed candidate that exists on disk (its additions are
always existing files), and never a candidate that does not exist; with
`auth.py` present the query "add authentication features" yields a set
containing `auth.py`, and with neither `auth.py` nor `authentication.py`
present it yields neither. -/
theorem C7_keyword_candidates :
    (∀ query fs row c, row ∈ keywords_to_files →
      keywordMatches row.1 (query.map Char.toLower) = true →
      row.2.find? (fun cand => fs.contains cand) = some c →
      c ∈ infer_target_files query fs) ∧
    (∀ query fs c, c ∈ pattern2_matches query fs → c ∈ fs) ∧
    strOf "auth.py" ∈ infer_target_files
      (strOf "add authentication features") [strOf "auth.py", strOf "main.py"] ∧
    (strOf "auth.py" ∉ infer_target_files
        (strOf "add authentication features") [strOf "main.py"] ∧
     strOf "authentication.py" ∉ infer_target_files
        (strOf "add authentication features") [strOf "main.py"]) := by
  refine ⟨?_, ?_, by decide, by decide, by decide⟩
  · intro query fs row c hrow hmatch hfind
    unfold infer_target_files
    apply List.mem_dedup.mpr
    apply List.mem_append_right
    unfold pattern2_matches
    apply List.mem_flatMap.mpr
    refine ⟨row, hrow, ?_⟩
    rw [hmatch]
    rw [if_pos rfl, hfind]
    exact List.mem_singleton.mpr rfl
  · intro query fs c hc
    unfold pattern2_matches at hc
    rcases List.mem_flatMap.mp hc with ⟨row, _, hmem⟩
    by_cases hm : keywordMatches row.1 (query.map Char.toLower) = true
    · rw [if_pos hm] at hmem
      cases hfind : row.2.find? (fun cand => fs.contains cand) with
      | none => rw [hfind] at hmem; exact absurd hmem (List.not_mem_nil c)
      | some c' =>
        rw [hfind] at hmem
        simp only [List.mem_singleton] at hmem
        subst hmem
        have hc' := List.find?_some hfind
        simpa using hc'
    · rw [if_neg hm] at hmem
      exact absurd hmem (List.not_mem_nil c)

theorem C7_keyword_candidates_witness :
    keywordMatches [strOf "auth", strOf "authentication"]
      ((strOf "add authentication features").map Char.toLower) = true ∧
    strOf "auth.py" ∈ infer_target_files
      (strOf "add authentication features") [strOf "auth.py", strOf "main.py"] :=
  ⟨by decide,
   C7_keyword_candidates.1 (strOf "add authentication features")
     [strOf "auth.py", strOf "main.py"]
     ([strOf "auth", strOf "authentication"],
      [strOf "auth.py", strOf "authentication.py"])
     (strOf "auth.py") (by decide) (by decide) (by decide)⟩

/-! ## Retrieval fallback chain (`get_relevant_context`, context.py 221-293)

The effectful collaborators are modelled by an environment recording each
operation's outcome. Control flow of the source:

* line 232: `get_chroma_client` — outside every `try`; a failure here
  propagates.
* lines 235-239: `get_collection` inside `try`, with `index_codebase` as
  the `except` handler; a failure of the handler itself propagates.
* line 242: `infer_target_files` — pure in this model (it only runs the
  regex rules and existence checks).
* lines 245-246: `get_embedding_model` / `encode` — outside the `try`
  that begins at line 248; a failure here propagates.
* lines 248-289: the store query and all result formatting (including the
  inferred-target header block) — one `try` whose `except` (lines
  291-293) returns `get_simple_context`, which itself can raise (e.g.
  `f.stat()` during its recency sort is unguarded), in which case that
  exception propagates. -/

structure RetrievalEnv where
  get_chroma_client : Except Unit Unit
  get_collection : Except Unit Unit
  index_codebase_call : Except Unit Unit
  encode : Except Unit Unit
  query_and_format : Except Unit Str
  get_simple_context : Except Unit Str
deriving DecidableEq, Repr

/-- `get_relevant_context` at the granularity of its failure boundaries. -/
def get_relevant_context (env : RetrievalEnv) : Except Unit Str := do
  let _ ← env.get_chroma_client
  let _ ← match env.get_collection with
          | .ok u => Except.ok u
          | .error _ => env.index_codebase_call
  let _ ← env.encode
  match env.query_and_format with
  | .ok s => .ok s
  | .error _ => env.get_simple_context

/-! ### Claim C1 -/

/-- C1 counterexample: with the client and collection available but the
query-embedding computation failing (`model.encode`, context.py line 246,
which sits outside the `try` that begins at line 248), the exception
escapes `get_relevant_context` to its caller instead of being handled by
the recency fallback — refuting the claim that any failure while computing
the query embedding is handled internally. -/
theorem C1_counterexample :
    get_relevant_context
      ⟨.ok (), .ok (), .ok (), .error (), .ok (strOf "ctx"),
       .ok (strOf "simple")⟩ = .error () := by
  rfl

/-- C1 (amended): only failures inside the search-and-format phase are
handled internally, by falling back to `get_simple_context`;
`get_relevant_context` returns a string provided the client is obtained,
the collection is obtained or successfully rebuilt, the query embedding is
computed, and either the search-and-format phase or the fallback itself
succeeds. Failures at any of those four points propagate to the caller. -/
theorem C1_fallback (env : RetrievalEnv)
    (hclient : env.get_chroma_client = .ok ())
    (hcoll : env.get_collection = .ok () ∨ env.index_codebase_call = .ok ())
    (hencode : env.encode = .ok ())
    (hq : (∃ s, env.query_and_format = .ok s) ∨
          (∃ s, env.get_simple_context = .ok s)) :
    ∃ s, get_relevant_context env = .ok s := by
  unfold get_relevant_context
  rw [hclient, hencode]
  cases hg : env.get_collection with
  | ok u =>
    cases u
    show ∃ s, (match env.query_and_format with
               | .ok s => Except.ok s
               | .error _ => env.get_simple_context) = .ok s
    cases hqf : env.query_and_format with
    | ok s => exact ⟨s, rfl⟩
    | error e =>
      rcases hq with ⟨s, hs⟩ | ⟨s, hs⟩
      · rw [hqf] at hs; exact absurd hs (by simp)
      · exact ⟨s, hs⟩
  | error e =>
    rcases hcoll with h | h
    · rw [hg] at h; exact absurd h (by simp)
    · cases e
      rw [h]
      show ∃ s, (match env.query_and_format with
                 | .ok s => Except.ok s
                 | .error _ => env.get_simple_context) = .ok s
      cases hqf : env.query_and_format with
      | ok s => exact ⟨s, rfl⟩
      | error e' =>
        rcases hq with ⟨s, hs⟩ | ⟨s, hs⟩
        · rw [hqf] at hs; exact absurd hs (by simp)
        · exact ⟨s, hs⟩

theorem C1_fallback_witness :
    ∃ s, get_relevant_context
      ⟨.ok (), .ok (), .error (), .ok (), .error (),
       .ok (strOf "simple fallback")⟩ = .ok s :=
  C1_fallback
    ⟨.ok (), .ok (), .error (), .ok (), .error (), .ok (strOf "simple fallback")⟩
    rfl (Or.inl rfl) rfl (Or.inr ⟨strOf "simple fallback", rfl⟩)
